import Mathlib

/-!
Verification of the Gleam-Docs documentation generator (`generate_docs.py`).

The Python source is shallowly embedded below: strings are modelled as
`List Char`, and each Python function is translated into a computable Lean
definition that mirrors its control flow.  Python regular expressions are
modelled operationally: every pattern used by the program is built from
character classes that are pairwise disjoint (`\w`, `\s`, literal
punctuation), so backtracking is deterministic and each `re.search` /
`re.match` can be rendered as a left-to-right scan; comments at each
definition record the regex being modelled.
-/

/-- `List Char` view of a string literal. -/
def lc (s : String) : List Char := s.data

/-- Python's whitespace class (`\s`, also the default `str.strip` set). -/
def isPySpace (c : Char) : Bool :=
  c = ' ' || c = '\t' || c = '\n' || c = '\r' || c = '\x0b' || c = '\x0c'

/-- Python's word-character class `\w` (source files are ASCII). -/
def isWordChar (c : Char) : Bool := c.isAlphanum || c = '_'

/-- Python `str.strip()`: drop whitespace from both ends. -/
def pyStrip (s : List Char) : List Char :=
  ((s.dropWhile isPySpace).reverse.dropWhile isPySpace).reverse

/-- Substring test, `pat in s` in Python (`pat` is always non-empty here). -/
def hasSub (pat : List Char) : List Char → Bool
  | [] => pat.isPrefixOf ([] : List Char)
  | c :: rest => pat.isPrefixOf (c :: rest) || hasSub pat rest

/-- Split at the first occurrence of `pat`: returns the part before the
occurrence and the part after it. -/
def splitFirst (pat : List Char) : List Char → Option (List Char × List Char)
  | [] => if pat.isPrefixOf ([] : List Char) then some ([], []) else none
  | c :: rest =>
    if pat.isPrefixOf (c :: rest) then some ([], (c :: rest).drop pat.length)
    else
      match splitFirst pat rest with
      | some (b, a) => some (c :: b, a)
      | none => none

/-- Python `sep.join`, on character lists. -/
def joinWith (sep : List Char) : List (List Char) → List Char
  | [] => []
  | [x] => x
  | x :: xs => x ++ sep ++ joinWith sep xs

/-- Python `s.split(d)` for a single-character separator. -/
def splitOn (d : Char) : List Char → List (List Char)
  | [] => [[]]
  | c :: rest =>
    if c = d then [] :: splitOn d rest
    else
      match splitOn d rest with
      | t :: ts => (c :: t) :: ts
      | [] => [[c]]

/-- Python `s.replace('///', '')` (left-to-right, non-overlapping). -/
def removeTripleSlash : List Char → List Char
  | '/' :: '/' :: '/' :: rest => removeTripleSlash rest
  | c :: rest => c :: removeTripleSlash rest
  | [] => []

/-- Python `s.replace('.gleam', '')` (left-to-right, non-overlapping). -/
def removeDotGleam : List Char → List Char
  | '.' :: 'g' :: 'l' :: 'e' :: 'a' :: 'm' :: rest => removeDotGleam rest
  | c :: rest => c :: removeDotGleam rest
  | [] => []

example : pyStrip (lc "  a b  ") = lc "a b" := by decide
example : hasSub (lc "// ->") (lc "x // -> 3") = true := by decide
example : splitFirst (lc "ab") (lc "xxabyy") = some (lc "xx", lc "yy") := by decide
example : removeTripleSlash (lc "////x") = lc "/x" := by decide
example : splitOn '\n' (lc "a\nb") = [lc "a", lc "b"] := by decide
example : removeDotGleam (lc "gleam/t.gleam") = lc "gleam/t" := by decide

/-! ## `extract_examples` (source lines 11-39) -/

/-- `re.sub(r'^///\s*', '', doc, flags=re.MULTILINE)`.

`^` (with `MULTILINE`) matches at position 0 and right after every `'\n'`;
`\s*` is greedy and may swallow newlines, in which case the position after
the removed text is again a line start.  The scan is driven by a fuel
argument (the initial string length bounds the number of steps, since every
step consumes at least one character). -/
def cleanSlashesF : Nat → Bool → List Char → List Char
  | 0, _, s => s
  | _ + 1, _, [] => []
  | n + 1, atStart, c :: rest =>
    if atStart ∧ (lc "///").isPrefixOf (c :: rest) then
      let afterMarker := (c :: rest).drop 3
      let ws := afterMarker.takeWhile isPySpace
      let nextStart := if ws = [] then false else ws.getLast? = some '\n'
      cleanSlashesF n nextStart (afterMarker.dropWhile isPySpace)
    else c :: cleanSlashesF n (c = '\n') rest

def cleanSlashes (s : List Char) : List Char := cleanSlashesF s.length true s

/-- The fenced code blocks matched by
`re.finditer(r'```gleam\n(.*?)\n```', doc_clean, re.MULTILINE | re.DOTALL)`,
in source order.  A match needs the literal opener followed (non-greedily)
by the literal `"\n```"`; scanning resumes after the closing fence. -/
def findBlocksF : Nat → List Char → List (List Char)
  | 0, _ => []
  | n + 1, s =>
    match splitFirst (lc "```gleam\n") s with
    | none => []
    | some (_, afterOpen) =>
      match splitFirst (lc "\n```") afterOpen with
      | none => []
      | some (content, afterClose) => content :: findBlocksF n afterClose

def findBlocks (s : List Char) : List (List Char) := findBlocksF s.length s

/-- One candidate line of `extract_examples` (body of the inner loop):
the previous line, stripped, is accepted unless empty, a `//` comment or an
`import`; a leading `|>` is stripped; then it must not be a `let ` binding,
must still be non-empty and must not already be in the accumulator. -/
def exCandidate (prevLine : List Char) (acc : List (List Char)) :
    Option (List Char) :=
  let ex := pyStrip prevLine
  if ex ≠ [] ∧ ¬ (lc "//").isPrefixOf ex ∧ ¬ (lc "import").isPrefixOf ex then
    let ex := if (lc "|>").isPrefixOf ex then pyStrip (ex.drop 2) else ex
    if ¬ (lc "let ").isPrefixOf ex ∧ ex ≠ [] ∧ ex ∉ acc then some ex else none
  else none

/-- The per-block line scan of `extract_examples`.  `prev` is the previous
(unstripped) line; the marker `// ->` is only looked for on lines with a
predecessor (`i > 0`).  The returned flag records the early
`return examples` taken as soon as 4 examples have been collected. -/
def scanBlockLines (prev : List Char) (acc : List (List Char)) :
    List (List Char) → List (List Char) × Bool
  | [] => (acc, false)
  | l :: rest =>
    if hasSub (lc "// ->") (pyStrip l) then
      match exCandidate prev acc with
      | some ex =>
        let acc' := acc ++ [ex]
        if 4 ≤ acc'.length then (acc', true) else scanBlockLines l acc' rest
      | none => scanBlockLines l acc rest
    else scanBlockLines l acc rest

/-- The outer loop of `extract_examples` over code blocks; the final
`examples[:4]` is the `take 4`. -/
def runBlocks (acc : List (List Char)) : List (List Char) → List (List Char)
  | [] => acc.take 4
  | b :: bs =>
    match splitOn '\n' b with
    | [] => runBlocks acc bs
    | l0 :: ls =>
      let res := scanBlockLines l0 acc ls
      if res.2 then res.1 else runBlocks res.1 bs

/-- `extract_examples(doc)` (source lines 11-39). -/
def extract_examples (doc : List Char) : List (List Char) :=
  runBlocks [] (findBlocks (cleanSlashes doc))

example :
    extract_examples
        (lc "/// ## Examples\n/// ```gleam\n/// some_call(1, 2)\n/// // -> 3\n/// ```") =
      [lc "some_call(1, 2)"] := by decide

/-! ## `parse_function_signature` (source lines 41-139) -/

/-- A parsed parameter (`{'name': ..., 'label': ..., 'type': ...}`). -/
structure Param where
  name : List Char
  label : Option (List Char)
  type : List Char
  deriving Repr, DecidableEq

/-- A parsed signature (`{'name': ..., 'parameters': ..., 'returnType': ...}`). -/
structure SigInfo where
  name : List Char
  parameters : List Param
  returnType : List Char
  deriving Repr, DecidableEq

/-- Signature-line collection (source lines 44-52): starting at the
declaration line, strip and append each line, stopping after the first line
that contains `'{'` and does not itself start with `pub fn`. -/
def collectSig : List (List Char) → List (List Char)
  | [] => []
  | l :: rest =>
    let s := pyStrip l
    if '{' ∈ s ∧ ¬ (lc "pub fn").isPrefixOf s then [s]
    else s :: collectSig rest

/-- `re.search(r'pub fn (\w+)\(', full_sig)` (source line 58): returns the
captured name and the text after the opening parenthesis.  `\w+` is greedy
and `(` is not a word character, so the match at a given start position is
forced; on failure the scan advances one character. -/
def findPubFn : List Char → Option (List Char × List Char)
  | [] => none
  | c :: rest =>
    if (lc "pub fn ").isPrefixOf (c :: rest) then
      let t := (c :: rest).drop 7
      let w := t.takeWhile isWordChar
      if w ≠ [] ∧ (t.drop w.length).head? = some '(' then
        some (w, t.drop (w.length + 1))
      else findPubFn rest
    else findPubFn rest

/-- The parenthesis-depth scan after the opening `(` (source lines 65-75):
returns the parameter text and the suffix starting at the matching `)`.
If the parenthesis is never closed, Python leaves `params_end` at
`params_start`, i.e. the parameter text is empty and the return-type search
runs over the whole suffix: that case is `none` here and handled by the
caller. -/
def scanClose (depth : Int) (acc : List Char) :
    List Char → Option (List Char × List Char)
  | [] => none
  | c :: rest =>
    if c = '(' then scanClose (depth + 1) (acc ++ [c]) rest
    else if c = ')' then
      if depth - 1 = 0 then some (acc, c :: rest)
      else scanClose (depth - 1) (acc ++ [c]) rest
    else scanClose depth (acc ++ [c]) rest

/-- The tail of `re.search(r'\)\s*->\s*([^{]+)', ...)` at one candidate `)`:
given the text after the `)`, require `\s*` then the literal arrow; after
the arrow, greedy `\s*` followed by `[^{]+` either starts at a character
other than `'{'` (group runs to the first `'{'`), or — when the whitespace
run is non-empty — backtracks one whitespace character, which then is the
whole group. -/
def tryRetAt (afterParen : List Char) : Option (List Char) :=
  let r1 := afterParen.dropWhile isPySpace
  match r1 with
  | '-' :: '>' :: r2 =>
    let ws := r2.takeWhile isPySpace
    let t := r2.dropWhile isPySpace
    if t ≠ [] ∧ t.head? ≠ some '{' then some (t.takeWhile (· ≠ '{'))
    else if ws ≠ [] then some [ws.getLast!]
    else none
  | _ => none

/-- The search loop of `re.search(r'\)\s*->\s*([^{]+)', ...)`: try every
`)` from the left; the result is the raw captured group. -/
def findRet : List Char → Option (List Char)
  | [] => none
  | c :: rest =>
    if c = ')' then
      match tryRetAt rest with
      | some g => some g
      | none => findRet rest
    else findRet rest

/-- `if (strip cur) is non-empty, append it` — the two
`if current.strip(): param_parts.append(current.strip())` sites. -/
def pushPart (acc : List (List Char)) (cur : List Char) : List (List Char) :=
  if pyStrip cur ≠ [] then acc ++ [pyStrip cur] else acc

/-- The manual parameter-splitting loop (source lines 90-115): a single
depth counter incremented at `(` and `<`, decremented at `)` and `>`;
a `-` immediately followed by `>` is consumed as one atomic arrow token;
`,` at depth 0 separates parameters. -/
def splitGo : List Char → Int → List Char → List (List Char) → List (List Char)
  | [], _, cur, acc => pushPart acc cur
  | '-' :: '>' :: rest, d, cur, acc => splitGo rest d (cur ++ ['-', '>']) acc
  | c :: rest, d, cur, acc =>
    if c = '(' ∨ c = '<' then splitGo rest (d + 1) (cur ++ [c]) acc
    else if c = ')' ∨ c = '>' then splitGo rest (d - 1) (cur ++ [c]) acc
    else if c = ',' ∧ d = 0 then splitGo rest d [] (pushPart acc cur)
    else splitGo rest d (cur ++ [c]) acc

def split_params (s : List Char) : List (List Char) := splitGo s 0 [] []

/-- `re.match(r'(?:(\w+)\s+)?(\w+)\s*:\s*(.+)', param_str)` (source
line 124).  The classes `\w` and `\s` and the literal `:` are pairwise
disjoint, so every greedy repetition is forced and the only genuine choice
point is the optional label group, tried first; `.` does not match `'\n'`,
and `group(3)` is stripped by the caller. -/
def matchParam (s : List Char) : Option Param :=
  let w1 := s.takeWhile isWordChar
  if w1 = [] then none
  else
    let r1 := s.drop w1.length
    let ws1 := r1.takeWhile isPySpace
    let r2 := r1.drop ws1.length
    let labelled : Option Param :=
      if ws1 = [] then none
      else
        let w2 := r2.takeWhile isWordChar
        if w2 = [] then none
        else
          let r4 := (r2.drop w2.length).dropWhile isPySpace
          if r4.head? = some ':' then
            let body := (r4.tail.dropWhile isPySpace).takeWhile (· ≠ '\n')
            if body = [] then none
            else some ⟨w2, some w1, pyStrip body⟩
          else none
    if labelled.isSome then labelled
    else
      if r2.head? = some ':' then
        let body := (r2.tail.dropWhile isPySpace).takeWhile (· ≠ '\n')
        if body = [] then none
        else some ⟨w1, none, pyStrip body⟩
      else none

/-- Parameter parsing (source lines 87-133): split, then keep the parts
that match the parameter pattern, silently dropping the rest. -/
def parse_params (paramsStr : List Char) : List Param :=
  (split_params paramsStr).filterMap matchParam

/-- `parse_function_signature` applied to the joined signature string
(source lines 54-139). -/
def parseSigStr (fullSig : List Char) : Option SigInfo :=
  match findPubFn fullSig with
  | none => none
  | some (name, afterOpen) =>
    let pr :=
      match scanClose 1 [] afterOpen with
      | some (ps, region) => (pyStrip ps, region)
      | none => ([], afterOpen)
    match findRet pr.2 with
    | none => none
    | some g =>
      some ⟨name, parse_params pr.1, pyStrip g⟩

/-- `parse_function_signature(lines, start_idx)` where `declLines` is
`lines[start_idx:]` (the lines from the declaration on). -/
def parse_function_signature (declLines : List (List Char)) : Option SigInfo :=
  parseSigStr (joinWith [' '] (collectSig declLines))

example :
    parse_params (lc "name: List(Result(a, e))") =
      [⟨lc "name", none, lc "List(Result(a, e))"⟩] := by decide

example :
    parse_params (lc "x: fn(a, b) -> c, y: Int") =
      [⟨lc "x", none, lc "fn(a, b) -> c"⟩, ⟨lc "y", none, lc "Int"⟩] := by decide

example :
    parse_function_signature [lc "pub fn map(over list: List(a), with fun: fn(a) -> b) -> List(b) \x7b"] =
      some ⟨lc "map",
        [⟨lc "list", some (lc "over"), lc "List(a)"⟩,
         ⟨lc "fun", some (lc "with"), lc "fn(a) -> b"⟩], lc "List(b)"⟩ := by decide

example :
    parse_function_signature [lc "pub fn foo() -> \x7b", lc "\x7d"] =
      some ⟨lc "foo", [], []⟩ := by decide

example : parse_function_signature [lc "pub fn bad(x: Int) \x7b", lc "\x7b\x7d"] = none := by decide

/-! ## Documentation-block parsing inside `parse_gleam_file`
(source lines 176-219) -/

/-- One line cleaned as in the purpose / fallback loops:
`doc_line.replace('///', '').strip()`. -/
def cleanDocLine (l : List Char) : List Char := pyStrip (removeTripleSlash l)

/-- The purpose loop (source lines 177-182): first cleaned doc line that is
non-empty and not a markdown heading. -/
def purposeOf : List (List Char) → List Char
  | [] => []
  | l :: rest =>
    let c := cleanDocLine l
    if c ≠ [] ∧ ¬ (lc "##").isPrefixOf c then c else purposeOf rest

/-- `re.sub(r'## Examples.*', '', doc_text, flags=re.DOTALL)` — with
`DOTALL` the first match extends to the end of the text, so this truncates
at the first occurrence of `"## Examples"`. -/
def truncAtExamples (s : List Char) : List Char :=
  match splitFirst (lc "## Examples") s with
  | some (before, _) => before
  | none => s

/-- `re.sub(r'```.*?```', '', s, flags=re.DOTALL)`: each `` ``` `` that has a
later closing `` ``` `` is removed together with the (minimal) text between
them; scanning resumes after the closing fence.  Fuel-driven (each step
consumes at least one character). -/
def subCodeBlocksF : Nat → List Char → List Char
  | 0, s => s
  | _ + 1, [] => []
  | n + 1, c :: rest =>
    if (lc "```").isPrefixOf (c :: rest) then
      match splitFirst (lc "```") ((c :: rest).drop 3) with
      | some (_, afterClose) => subCodeBlocksF n afterClose
      | none => c :: subCodeBlocksF n rest
    else c :: subCodeBlocksF n rest

def subCodeBlocks (s : List Char) : List Char := subCodeBlocksF s.length s

/-- `re.sub(r'```.*', '', s)` (no `DOTALL`): every `` ``` `` and the rest of
its line are removed; the newline itself is kept. -/
def subTicksEolF : Nat → List Char → List Char
  | 0, s => s
  | _ + 1, [] => []
  | n + 1, c :: rest =>
    if (lc "```").isPrefixOf (c :: rest) then
      subTicksEolF n (((c :: rest).drop 3).dropWhile (· ≠ '\n'))
    else c :: subTicksEolF n rest

def subTicksEol (s : List Char) : List Char := subTicksEolF s.length s

/-- Python `s.split()` (split on whitespace runs, no empty parts). -/
def pyWordsF : Nat → List Char → List (List Char)
  | 0, _ => []
  | _ + 1, [] => []
  | n + 1, c :: rest =>
    if isPySpace c then pyWordsF n rest
    else (c :: rest.takeWhile (fun d => ¬ isPySpace d)) ::
      pyWordsF n (rest.dropWhile (fun d => ¬ isPySpace d))

/-- `' '.join(s.split())`. -/
def normalizeWs (s : List Char) : List Char :=
  joinWith [' '] (pyWordsF s.length s)

/-- Lower-case comparison for `re.IGNORECASE`. -/
def lowEq (a b : Char) : Bool := a.toLower = b.toLower

def lowMatches : List Char → List Char → Bool
  | [], _ => true
  | _ :: _, [] => false
  | p :: ps, c :: cs => lowEq p c && lowMatches ps cs

/-- `re.search(lit + r'[^.]+\.[^.]*\.', s, re.IGNORECASE)` for a literal
`lit` with no self-overlap: at each occurrence of the literal, `[^.]+` and
`[^.]*` are forced runs of non-period characters (each must be followed by
a literal `'.'`, which the class excludes, so no backtracking); on failure
the scan advances one character.  Returns `group(0)` in original case. -/
def searchHelpful (lit : List Char) : List Char → Option (List Char)
  | [] => none
  | c :: rest =>
    let s := c :: rest
    (if lowMatches lit s then
      let r0 := s.drop lit.length
      let run1 := r0.takeWhile (· ≠ '.')
      if run1 ≠ [] ∧ (r0.drop run1.length).head? = some '.' then
        let r1 := r0.drop (run1.length + 1)
        let run2 := r1.takeWhile (· ≠ '.')
        if (r1.drop run2.length).head? = some '.' then
          some (s.take (lit.length + run1.length + 1 + run2.length + 1))
        else searchHelpful lit rest
      else searchHelpful lit rest
    else searchHelpful lit rest)

/-- One iteration of the `helpful_patterns` loop body (source lines
196-208): on a match, `group(0).strip()`, remove `'///'`, remove
`` ``` ``-to-end-of-line, collapse whitespace; keep the result only if it
is longer than 10 characters and has no remaining code fence. -/
def tryPattern (lit : List Char) (docForHelpful : List Char) :
    Option (List Char) :=
  match searchHelpful lit docForHelpful with
  | none => none
  | some m =>
    let w := normalizeWs (subTicksEol (removeTripleSlash (pyStrip m)))
    if 10 < w.length ∧ ¬ hasSub (lc "```") w then some w else none

/-- The full pattern phase of the `whyHelpful` extraction (source lines
184-208): truncate at `## Examples`, strip fenced code blocks, then try the
three patterns in order.  A pattern whose match fails the length/fence check
leaves `why_helpful` empty and the loop moves to the next pattern. -/
def patternHelpful (docText : List Char) : Option (List Char) :=
  let dfh := subCodeBlocks (truncAtExamples docText)
  match tryPattern (lc "This function") dfh with
  | some w => some w
  | none =>
    match tryPattern (lc "Useful") dfh with
    | some w => some w
    | none => tryPattern (lc "This") dfh

/-- The fallback loop (source lines 211-216): first cleaned line, among
the doc lines after the first, that is non-empty, not a heading, has no
code fence, and whose length is strictly between 10 and 200. -/
def fallbackHelpful : List (List Char) → List Char
  | [] => []
  | l :: rest =>
    let c := cleanDocLine l
    if c ≠ [] ∧ ¬ (lc "##").isPrefixOf c ∧ ¬ hasSub (lc "```") c ∧
        c.length < 200 ∧ 10 < c.length then c
    else fallbackHelpful rest

/-- `why_helpful` as computed for one function (source lines 184-216). -/
def whyHelpfulOf (docText : List Char) (docLines : List (List Char)) :
    List Char :=
  match patternHelpful docText with
  | some w => w
  | none =>
    if 1 < docLines.length then fallbackHelpful (docLines.drop 1) else []

example :
    whyHelpfulOf (lc "/// Does a thing.\n/// This function is great. Use it.")
      [lc "/// Does a thing.", lc "/// This function is great. Use it."] =
      lc "This function is great. Use it." := by decide

/-! ## Module-level documentation (source lines 149-153)

`re.search(r'^////\s*(.+?)(?=\n\n|\n[^/]|\Z)', content, re.MULTILINE | re.DOTALL)`. -/

/-- The lookahead `(?=\n\n|\n[^/]|\Z)`: `[^/]` also matches `'\n'`, so the
first two alternatives collapse to "a `'\n'` followed by any character that
is not `'/'`", and `\Z` is the end of the text. -/
def quadLookahead : List Char → Bool
  | [] => true
  | c1 :: c2 :: _ => c1 = '\n' ∧ c2 ≠ '/'
  | [_] => false

/-- The lazy `(.+?)` before the lookahead: the shortest non-empty prefix
after which the lookahead holds. -/
def grabQuad : List Char → List Char
  | [] => []
  | c :: rest => c :: (if quadLookahead rest then [] else grabQuad rest)

/-- `group(1)` of the module-doc pattern once `^////` matched and `S` is the
text after the marker.  The greedy `\s*` takes the maximal whitespace run;
if that exhausts `S`, it backtracks a single character (the lazy `(.+?)`
then matches exactly that whitespace character, with `\Z` holding after
it). -/
def quadBody (S : List Char) : List Char :=
  match S.dropWhile isPySpace with
  | [] => (match S.getLast? with | some c => [c] | none => [])
  | s => grabQuad s

/-- The `^` + `MULTILINE` search for the quadruple-marker doc: scan for a
line start followed by `"////"`; a position where the marker is at the very
end of the text yields no match (the pattern needs at least one more
character), and then no later occurrence can exist either. -/
def findQuadDoc (atStart : Bool) : List Char → Option (List Char)
  | [] => none
  | c :: rest =>
    if atStart ∧ (lc "////").isPrefixOf (c :: rest) then
      match (c :: rest).drop 4 with
      | [] => none
      | S => some (quadBody S)
    else findQuadDoc (c = '\n') rest

/-- `module_description` (source lines 150-153): matched group, stripped;
empty string when there is no match. -/
def moduleDescription (content : List Char) : List Char :=
  match findQuadDoc true content with
  | some g => pyStrip g
  | none => []

example :
    moduleDescription (lc "//// Strings in Gleam.\n////\n//// Details.\n\nimport x") =
      lc "Strings in Gleam.\n////\n//// Details." := by decide

/-! ## `parse_gleam_file` (source lines 141-234) -/

/-- A parsed function together with its documentation fields
(`func_info` after lines 221-224). -/
structure FuncInfo where
  name : List Char
  parameters : List Param
  returnType : List Char
  purpose : List Char
  whyHelpful : List Char
  examples : List (List Char)
  module : List Char
  deriving Repr, DecidableEq

/-- The module dictionary returned by `parse_gleam_file`. -/
structure ModuleData where
  name : List Char
  description : List Char
  functions : List FuncInfo
  deriving Repr, DecidableEq

/-- The backward documentation scan (source lines 164-169): the contiguous
run of `'///'` lines immediately above the declaration, in source order.
`prevRev` is the list of lines above the declaration, closest first. -/
def collectDocs (prevRev : List (List Char)) : List (List Char) :=
  (prevRev.takeWhile (fun l => (lc "///").isPrefixOf (pyStrip l))).reverse

/-- Assembling one function entry (source lines 174-226). -/
def mkFuncInfo (moduleName : List Char) (docLines : List (List Char))
    (si : SigInfo) : FuncInfo :=
  let docText := joinWith ['\n'] docLines
  { name := si.name
    parameters := si.parameters
    returnType := si.returnType
    purpose := purposeOf docLines
    whyHelpful := whyHelpfulOf docText docLines
    examples := extract_examples docText
    module := moduleName }

/-- The main line scan of `parse_gleam_file` (source lines 157-228):
`prevRev` holds the already-visited lines (closest first) for the backward
documentation scan; the signature parse sees the current line and
everything after it. -/
def pgScan (moduleName : List Char) (prevRev : List (List Char)) :
    List (List Char) → List FuncInfo
  | [] => []
  | l :: rest =>
    let here :=
      if (lc "pub fn ").isPrefixOf (pyStrip l) then
        match parse_function_signature (l :: rest) with
        | some si => [mkFuncInfo moduleName (collectDocs prevRev) si]
        | none => []
      else []
    here ++ pgScan moduleName (l :: prevRev) rest

/-- `parse_gleam_file` (source lines 141-234).  `relPath` is the path
relative to `gleam-stdlib/src` (the `file_path.relative_to(...)` result);
the module name strips the `.gleam` extension and turns `/` into `.`. -/
def parse_gleam_file (relPath content : List Char) : ModuleData :=
  let moduleName := (removeDotGleam relPath).map (fun c => if c = '/' then '.' else c)
  { name := moduleName
    description := moduleDescription content
    functions := pgScan moduleName [] (splitOn '\n' content) }

example :
    (parse_gleam_file (lc "gleam/t.gleam")
        (lc "/// Doubles.\npub fn double(x: Int) -> Int \x7b\n  x * 2\n\x7d")).functions =
      [{ name := lc "double", parameters := [⟨lc "x", none, lc "Int"⟩],
         returnType := lc "Int", purpose := lc "Doubles.", whyHelpful := [],
         examples := [], module := lc "gleam.t" }] := by decide

/-! ## Emission (source lines 236-357) -/

/-- `module_data['name'].replace('.', '_').replace('/', '_')`
(source lines 238 and 278). -/
def moduleIdOf (name : List Char) : List Char :=
  (name.map (fun c => if c = '.' then '_' else c)).map
    (fun c => if c = '/' then '_' else c)

/-- One `Function` node of a per-module document (source lines 244-254). -/
structure FunctionNode where
  id : List Char
  ntype : List Char
  name : List Char
  module : List Char
  purpose : List Char
  parameters : List Param
  returnType : List Char
  whyHelpful : List Char
  examples : List (List Char)
  deriving Repr, DecidableEq

/-- The `Module` node (source lines 258-264); `functions` holds the
`@id` references. -/
structure ModuleNode where
  id : List Char
  ntype : List Char
  name : List Char
  description : List Char
  functions : List (List Char)
  deriving Repr, DecidableEq

/-- The shared `@context` object (source lines 267-270, 287-290, 352-355). -/
structure LdContext where
  vocab : List Char
  exns : List Char
  deriving Repr, DecidableEq

def theContext : LdContext :=
  ⟨lc "https://aalang.org/spec", lc "https://aalang.org/example/"⟩

/-- A per-module JSON-LD document. -/
structure ModuleDoc where
  context : LdContext
  moduleNode : ModuleNode
  functionNodes : List FunctionNode
  deriving Repr, DecidableEq

/-- `generate_module_jsonld` (source lines 236-272). -/
def generate_module_jsonld (m : ModuleData) : ModuleDoc :=
  let moduleId := moduleIdOf m.name
  let functionNodes := m.functions.map (fun f =>
    { id := lc "ex:" ++ moduleId ++ '_' :: f.name
      ntype := lc "Function"
      name := f.name
      module := m.name
      purpose := f.purpose
      parameters := f.parameters
      returnType := f.returnType
      whyHelpful := f.whyHelpful
      examples := f.examples : FunctionNode })
  { context := theContext
    moduleNode :=
      { id := lc "ex:" ++ moduleId ++ lc "_module"
        ntype := lc "Module"
        name := m.name
        description := m.description
        functions := functionNodes.map (fun fn => fn.id) }
    functionNodes := functionNodes }

/-- One module reference inside the index (source lines 279-284). -/
structure ModuleRef where
  id : List Char
  name : List Char
  file : List Char
  functionCount : Nat
  deriving Repr, DecidableEq

/-- The `docs.jsonld` index document. -/
structure DocsIndex where
  context : LdContext
  modules : List ModuleRef
  typesFile : List Char
  deriving Repr, DecidableEq

/-- `generate_docs_jsonld` (source lines 274-299). -/
def generate_docs_jsonld (modules : List ModuleData) : DocsIndex :=
  { context := theContext
    modules := modules.map (fun m =>
      { id := lc "ex:" ++ moduleIdOf m.name ++ lc "_module"
        name := m.name
        file := (m.name.map (fun c => if c = '.' then '/' else c)) ++ lc ".jsonld"
        functionCount := m.functions.length : ModuleRef })
    typesFile := lc "gleam/gleam-types.jsonld" }

/-- A constructor entry of the static type catalog; `parameters` is `none`
for the `Order` constructors, which carry no `parameters` key at all. -/
structure CtorDef where
  name : List Char
  description : List Char
  parameters : Option (List (List Char))
  deriving Repr, DecidableEq

/-- A `Type` node of the static catalog. -/
structure TypeNode where
  id : List Char
  ntype : List Char
  name : List Char
  description : List Char
  constructors : List CtorDef
  deriving Repr, DecidableEq

structure TypesDoc where
  context : LdContext
  graph : List TypeNode
  deriving Repr, DecidableEq

/-- `generate_types_jsonld` (source lines 301-357): a constant — the
Python function takes no arguments and builds a fixed literal. -/
def generate_types_jsonld : TypesDoc :=
  { context := theContext
    graph :=
      [ { id := lc "ex:Result", ntype := lc "Type", name := lc "Result"
          description := lc "Represents the result of something that may succeed or not. Ok means it was successful, Error means it was not successful."
          constructors :=
            [ ⟨lc "Ok", lc "Successful result", some [lc "a"]⟩,
              ⟨lc "Error", lc "Error result", some [lc "e"]⟩ ] },
        { id := lc "ex:Option", ntype := lc "Type", name := lc "Option"
          description := lc "Represents a value that may be present or not. Some means the value is present, None means the value is not."
          constructors :=
            [ ⟨lc "Some", lc "Value is present", some [lc "a"]⟩,
              ⟨lc "None", lc "Value is not present", some []⟩ ] },
        { id := lc "ex:List", ntype := lc "Type", name := lc "List"
          description := lc "An ordered sequence of elements. New elements can be added and removed from the front in constant time."
          constructors := [] },
        { id := lc "ex:Dict", ntype := lc "Type", name := lc "Dict"
          description := lc "A dictionary of keys and values. Each key can only be present once. Dicts are not ordered."
          constructors := [] },
        { id := lc "ex:Order", ntype := lc "Type", name := lc "Order"
          description := lc "Represents the ordering relationship between two values."
          constructors :=
            [ ⟨lc "Lt", lc "Less than", none⟩,
              ⟨lc "Eq", lc "Equal", none⟩,
              ⟨lc "Gt", lc "Greater than", none⟩ ] } ] }

/-! ## `main` (source lines 359-396) -/

/-- Lexicographic comparison of character lists (by code point). -/
def leLC : List Char → List Char → Bool
  | [], _ => true
  | _ :: _, [] => false
  | a :: as, b :: bs => if a = b then leLC as bs else decide (a < b)

/-- A discovered source file: path relative to `gleam-stdlib/src`, and its
text content. -/
abbrev SrcFile := List Char × List Char

/-- Total order on discovered files used to model `sorted(...rglob(...))`:
primarily by path (paths in a directory tree are distinct; the content
component merely breaks ties to keep the order total). -/
def leFile (x y : SrcFile) : Prop :=
  (if x.1 = y.1 then leLC x.2 y.2 else leLC x.1 y.1) = true

instance : DecidableRel leFile := fun _ _ => by unfold leFile; infer_instance

/-- The sorted discovery order of `main` (source line 365). -/
def sortFiles (files : List SrcFile) : List SrcFile :=
  files.insertionSort leFile

/-- The module list built by `main` (source lines 364-369): parse every
discovered file, keep the modules whose function list is non-empty. -/
def mainModules (files : List SrcFile) : List ModuleData :=
  ((sortFiles files).map (fun f => parse_gleam_file f.1 f.2)).filter
    (fun m => !m.functions.isEmpty)

/-- Output path of a per-module document (source line 390). -/
def moduleFilePath (name : List Char) : List Char :=
  (name.map (fun c => if c = '.' then '/' else c)) ++ lc ".jsonld"

/-- Everything `main` writes: the index, the static type catalog, and one
document per kept module (source lines 374-396). -/
structure Outputs where
  index : DocsIndex
  types : TypesDoc
  moduleFiles : List (List Char × ModuleDoc)
  deriving Repr, DecidableEq

def run_pipeline (files : List SrcFile) : Outputs :=
  let modules := mainModules files
  { index := generate_docs_jsonld modules
    types := generate_types_jsonld
    moduleFiles := modules.map (fun m =>
      (moduleFilePath m.name, generate_module_jsonld m)) }

/-! ## Supporting lemmas -/

theorem findPubFn_name_ne_nil :
    ∀ cs nm u, findPubFn cs = some (nm, u) → nm ≠ [] := by
  intro cs
  induction cs with
  | nil => intro nm u h; simp [findPubFn] at h
  | cons c rest ih =>
    intro nm u h
    rw [findPubFn] at h
    split at h
    · simp only [] at h
      split at h
      · rename_i hcond
        obtain ⟨hw, _⟩ := hcond
        injection h with h'
        injection h' with h1 h2
        exact h1 ▸ hw
      · exact ih _ _ h
    · exact ih _ _ h

theorem parseSigStr_name_ne_nil (s : List Char) (si : SigInfo)
    (h : parseSigStr s = some si) : si.name ≠ [] := by
  unfold parseSigStr at h
  split at h
  · exact absurd h (by simp)
  · rename_i nm u hf
    simp only [] at h
    split at h
    · exact absurd h (by simp)
    · rename_i g hr
      have hn : si.name = nm := by
        have := Option.some.inj h
        rw [← this]
      exact hn ▸ findPubFn_name_ne_nil s nm u hf

theorem parse_function_signature_name_ne_nil (declLines : List (List Char))
    (si : SigInfo) (h : parse_function_signature declLines = some si) :
    si.name ≠ [] :=
  parseSigStr_name_ne_nil _ _ h

theorem pgScan_name_ne_nil :
    ∀ (ls : List (List Char)) (mn : List Char) (prevRev : List (List Char))
      (f : FuncInfo), f ∈ pgScan mn prevRev ls → f.name ≠ [] := by
  intro ls
  induction ls with
  | nil => intro mn prevRev f h; simp [pgScan] at h
  | cons l rest ih =>
    intro mn prevRev f h
    rw [pgScan, List.mem_append] at h
    rcases h with h | h
    · split at h
      · cases hsi : parse_function_signature (l :: rest) with
        | none => rw [hsi] at h; simp at h
        | some si =>
          rw [hsi] at h
          rw [List.mem_singleton] at h
          subst h
          exact parse_function_signature_name_ne_nil _ _ hsi
      · simp at h
    · exact ih mn (l :: prevRev) f h

theorem leLC_total : ∀ a b, leLC a b = true ∨ leLC b a = true := by
  intro a
  induction a with
  | nil => intro b; left; rfl
  | cons x xs ih =>
    intro b
    cases b with
    | nil => right; rfl
    | cons y ys =>
      by_cases hxy : x = y
      · subst hxy
        simp only [leLC, if_pos rfl]
        exact ih ys
      · simp only [leLC, if_neg hxy, if_neg (Ne.symm hxy)]
        rcases lt_or_gt_of_ne hxy with h | h
        · left; exact decide_eq_true h
        · right; exact decide_eq_true h

theorem leLC_antisymm : ∀ a b, leLC a b = true → leLC b a = true → a = b := by
  intro a
  induction a with
  | nil =>
    intro b _ hba
    cases b with
    | nil => rfl
    | cons y ys => exact absurd hba (by simp [leLC])
  | cons x xs ih =>
    intro b hab hba
    cases b with
    | nil => exact absurd hab (by simp [leLC])
    | cons y ys =>
      by_cases hxy : x = y
      · subst hxy
        rw [leLC, if_pos rfl] at hab hba
        rw [ih ys hab hba]
      · rw [leLC, if_neg hxy] at hab
        rw [leLC, if_neg (Ne.symm hxy)] at hba
        exact absurd (of_decide_eq_true hba) (lt_asymm (of_decide_eq_true hab))

theorem leLC_trans : ∀ a b c, leLC a b = true → leLC b c = true → leLC a c = true := by
  intro a
  induction a with
  | nil => intro b c _ _; rfl
  | cons x xs ih =>
    intro b c hab hbc
    cases b with
    | nil => exact absurd hab (by simp [leLC])
    | cons y ys =>
      cases c with
      | nil => exact absurd hbc (by simp [leLC])
      | cons z zs =>
        by_cases hxy : x = y
        · subst hxy
          rw [leLC, if_pos rfl] at hab
          by_cases hyz : x = z
          · subst hyz
            rw [leLC, if_pos rfl] at hbc ⊢
            exact ih ys zs hab hbc
          · rw [leLC, if_neg hyz] at hbc ⊢
            exact hbc
        · rw [leLC, if_neg hxy] at hab
          by_cases hyz : y = z
          · subst hyz
            rw [leLC, if_neg hxy]
            exact hab
          · rw [leLC, if_neg hyz] at hbc
            have hxz : x < z := lt_trans (of_decide_eq_true hab) (of_decide_eq_true hbc)
            rw [leLC, if_neg (ne_of_lt hxz)]
            exact decide_eq_true hxz

instance : IsTotal SrcFile leFile := by
  constructor
  intro x y
  unfold leFile
  by_cases h : x.1 = y.1
  · rw [if_pos h, if_pos h.symm]
    exact leLC_total x.2 y.2
  · rw [if_neg h, if_neg (Ne.symm h)]
    exact leLC_total x.1 y.1

instance : IsAntisymm SrcFile leFile := by
  constructor
  intro x y hxy hyx
  unfold leFile at hxy hyx
  by_cases h : x.1 = y.1
  · rw [if_pos h] at hxy
    rw [if_pos h.symm] at hyx
    exact Prod.ext h (leLC_antisymm _ _ hxy hyx)
  · rw [if_neg h] at hxy
    rw [if_neg (Ne.symm h)] at hyx
    exact absurd (leLC_antisymm _ _ hxy hyx) h

instance : IsTrans SrcFile leFile := by
  constructor
  intro x y z hxy hyz
  unfold leFile at hxy hyz ⊢
  by_cases hxy1 : x.1 = y.1
  · rw [if_pos hxy1] at hxy
    by_cases hyz1 : y.1 = z.1
    · rw [if_pos hyz1] at hyz
      rw [if_pos (hxy1.trans hyz1)]
      exact leLC_trans _ _ _ hxy hyz
    · rw [if_neg hyz1] at hyz
      rw [hxy1, if_neg hyz1]
      exact hyz
  · rw [if_neg hxy1] at hxy
    by_cases hyz1 : y.1 = z.1
    · have hxz1 : x.1 ≠ z.1 := fun he => hxy1 (he.trans hyz1.symm)
      rw [if_neg hxz1, ← hyz1]
      exact hxy
    · rw [if_neg hyz1] at hyz
      by_cases hxz1 : x.1 = z.1
      · have hyx : leLC y.1 x.1 = true := by rw [hxz1]; exact hyz
        exact absurd (leLC_antisymm _ _ hxy hyx) hxy1
      · rw [if_neg hxz1]
        exact leLC_trans _ _ _ hxy hyz

/-! ## Claim theorems -/

/-- C9: the pipeline output is a pure function of the discovered files'
(path, contents) pairs, independent of the enumeration order: any two
discovery enumerations that are permutations of one another produce
identical output documents, because `main` sorts the discovered files and
embeds no timestamp or random identifier (every field of `Outputs` is
computed from the file contents alone). -/
theorem C9_output_reproducible (files1 files2 : List SrcFile)
    (h : files1.Perm files2) :
    run_pipeline files1 = run_pipeline files2 := by
  have hs : sortFiles files1 = sortFiles files2 := by
    refine List.eq_of_perm_of_sorted
      (((files1.perm_insertionSort leFile).trans h).trans
        (files2.perm_insertionSort leFile).symm)
      (List.sorted_insertionSort leFile files1)
      (List.sorted_insertionSort leFile files2)
  unfold run_pipeline mainModules
  rw [hs]

theorem C9_output_reproducible_witness :
    run_pipeline
        [(lc "gleam/b.gleam", lc "pub fn b() -> Int \x7b"),
         (lc "gleam/a.gleam", lc "/// Halves.\npub fn half(x: Int) -> Int \x7b")] =
      run_pipeline
        [(lc "gleam/a.gleam", lc "/// Halves.\npub fn half(x: Int) -> Int \x7b"),
         (lc "gleam/b.gleam", lc "pub fn b() -> Int \x7b")] :=
  C9_output_reproducible _ _ (List.Perm.swap _ _ _)

/-- C2: the modules present in the emitted output — both the references in
the `docs.jsonld` index and the per-module files — are exactly the parsed
modules whose extracted function list is non-empty, in discovery order; in
particular a module all of whose declarations fail signature parsing has an
empty function list and is absent from every output. -/
theorem C2_emitted_module_set (files : List SrcFile) :
    ((run_pipeline files).index.modules.map (fun r => r.name) =
      (((sortFiles files).map (fun f => parse_gleam_file f.1 f.2)).filter
        (fun m => decide (m.functions ≠ []))).map (fun m => m.name)) ∧
    ((run_pipeline files).moduleFiles.map (fun mf => mf.2.moduleNode.name) =
      (((sortFiles files).map (fun f => parse_gleam_file f.1 f.2)).filter
        (fun m => decide (m.functions ≠ []))).map (fun m => m.name)) := by
  have hp : ∀ m : ModuleData, (!m.functions.isEmpty) = decide (m.functions ≠ []) := by
    intro m
    cases m.functions <;> simp
  have hfilter :
      mainModules files =
        ((sortFiles files).map (fun f => parse_gleam_file f.1 f.2)).filter
          (fun m => decide (m.functions ≠ [])) := by
    unfold mainModules
    exact List.filter_congr (fun m _ => hp m)
  constructor
  · show ((generate_docs_jsonld (mainModules files)).modules.map (fun r => r.name)) = _
    rw [hfilter]
    simp only [generate_docs_jsonld, List.map_map]
    rfl
  · show ((mainModules files).map (fun m =>
        (moduleFilePath m.name, generate_module_jsonld m))).map
          (fun mf => mf.2.moduleNode.name) = _
    rw [hfilter]
    simp only [List.map_map]
    rfl

theorem exCandidate_not_mem {prev : List Char} {acc : List (List Char)}
    {ex : List Char} (h : exCandidate prev acc = some ex) : ex ∉ acc := by
  unfold exCandidate at h
  simp only [] at h
  split at h
  · split at h <;> split at h
    all_goals
      first
        | (rename_i hcond
           injection h with h'
           exact h' ▸ hcond.2.2)
        | exact absurd h (by simp)
  · exact absurd h (by simp)

theorem scanBlockLines_inv :
    ∀ (ls : List (List Char)) (prev : List Char) (acc : List (List Char)),
      acc.Nodup → acc.length ≤ 3 →
      (scanBlockLines prev acc ls).1.Nodup ∧
        (scanBlockLines prev acc ls).1.length ≤ 4 ∧
        ((scanBlockLines prev acc ls).2 = false →
          (scanBlockLines prev acc ls).1.length ≤ 3) := by
  intro ls
  induction ls with
  | nil =>
    intro prev acc hnd hlen
    exact ⟨hnd, Nat.le_trans hlen (by omega), fun _ => hlen⟩
  | cons l rest ih =>
    intro prev acc hnd hlen
    rw [scanBlockLines]
    split
    · cases hc : exCandidate prev acc with
      | none => exact ih l acc hnd hlen
      | some ex =>
        simp only []
        have hnd' : (acc ++ [ex]).Nodup := by
          rw [List.nodup_append]
          refine ⟨hnd, List.nodup_singleton ex, ?_⟩
          intro a ha hb
          rw [List.mem_singleton] at hb
          exact exCandidate_not_mem hc (hb ▸ ha)
        have hlen' : (acc ++ [ex]).length = acc.length + 1 := by
          simp
        split
        · refine ⟨hnd', ?_, fun hf => by simp at hf⟩
          show (acc ++ [ex]).length ≤ 4
          rw [hlen']
          omega
        · rename_i hlt
          exact ih l (acc ++ [ex]) hnd' (by omega)
    · exact ih l acc hnd hlen

theorem runBlocks_inv :
    ∀ (bs : List (List Char)) (acc : List (List Char)),
      acc.Nodup → acc.length ≤ 3 →
      (runBlocks acc bs).Nodup ∧ (runBlocks acc bs).length ≤ 4 := by
  intro bs
  induction bs with
  | nil =>
    intro acc hnd hlen
    rw [runBlocks]
    exact ⟨hnd.sublist (List.take_sublist 4 acc), by
      simp [List.length_take_le 4 acc]⟩
  | cons b rest ih =>
    intro acc hnd hlen
    rw [runBlocks]
    split
    · exact ih acc hnd hlen
    · rename_i l0 ls heq
      obtain ⟨h1, h2, h3⟩ := scanBlockLines_inv ls l0 acc hnd hlen
      simp only []
      split
      · exact ⟨h1, h2⟩
      · rename_i hflag
        have : (scanBlockLines l0 acc ls).2 = false := by
          cases hsb : (scanBlockLines l0 acc ls).2 with
          | false => rfl
          | true => exact absurd hsb hflag
        exact ih _ h1 (h3 this)

/-- C5: example extraction scans the fenced `gleam` code blocks in order;
a `// ->` marker line (never the first line of a block) promotes the
previous line, trimmed, with the comment / import / `let ` exclusions and
`|>` stripping; the result never contains an exact-string duplicate and
never holds more than 4 entries (collection stops at 4).  Concretely: a
block with `some_call(1, 2)` then `// -> 3` yields exactly
`["some_call(1, 2)"]`, a `let` binding line is excluded, and a block with
five qualifying pairs yields only the first four. -/
theorem C5_example_extraction :
    (∀ doc : List Char,
      (extract_examples doc).Nodup ∧ (extract_examples doc).length ≤ 4) ∧
    extract_examples
        (lc "/// ## Examples\n/// ```gleam\n/// some_call(1, 2)\n/// // -> 3\n/// ```") =
      [lc "some_call(1, 2)"] ∧
    extract_examples (lc "/// ```gleam\n/// let x = 1\n/// // -> 1\n/// ```") = [] ∧
    extract_examples
        (lc "/// ```gleam\n/// e1(1)\n/// // -> 1\n/// e2(2)\n/// // -> 2\n/// e3(3)\n/// // -> 3\n/// e4(4)\n/// // -> 4\n/// e5(5)\n/// // -> 5\n/// ```") =
      [lc "e1(1)", lc "e2(2)", lc "e3(3)", lc "e4(4)"] := by
  refine ⟨fun doc => ?_, by decide, by decide, by decide⟩
  exact runBlocks_inv (findBlocks (cleanSlashes doc)) [] List.nodup_nil (by simp)

/-- The qualification test of a single documentation line in the
`whyHelpful` fallback, stated line-locally: the line, with `'///'` removed
and stripped, must be non-empty, not a markdown heading, contain no code
fence, and have length strictly between 10 and 200. -/
def qualifyLine (l : List Char) : Option (List Char) :=
  let c := cleanDocLine l
  if c ≠ [] ∧ ¬ (lc "##").isPrefixOf c ∧ ¬ hasSub (lc "```") c ∧
      c.length < 200 ∧ 10 < c.length then some c
  else none

theorem fallbackHelpful_eq_findSome :
    ∀ ls : List (List Char),
      fallbackHelpful ls = ((ls.findSome? qualifyLine).getD []) := by
  intro ls
  induction ls with
  | nil => rfl
  | cons l rest ih =>
    rw [fallbackHelpful, List.findSome?_cons]
    by_cases hq : cleanDocLine l ≠ [] ∧ ¬ (lc "##").isPrefixOf (cleanDocLine l) ∧
        ¬ hasSub (lc "```") (cleanDocLine l) ∧
        (cleanDocLine l).length < 200 ∧ 10 < (cleanDocLine l).length
    · rw [if_pos hq]
      have : qualifyLine l = some (cleanDocLine l) := by
        unfold qualifyLine
        rw [if_pos hq]
      rw [this]
      rfl
    · rw [if_neg hq]
      have : qualifyLine l = none := by
        unfold qualifyLine
        rw [if_neg hq]
      rw [this]
      exact ih

/-- C6 (counterexample): with the documentation block
`/// Purpose` / `/// short` / `/// This is a line longer than ten
characters`, none of the explanatory-sentence patterns matches and the
second documentation line (`/// short`, cleaned length 5) fails the
fallback qualification, so the claim predicts an empty `whyHelpful`; the
code instead keeps scanning and returns the third line. -/
theorem C6_counterexample :
    patternHelpful
        (lc "/// Purpose\n/// short\n/// This is a line longer than ten characters") =
      none ∧
    qualifyLine (lc "/// short") = none ∧
    [lc "/// Purpose", lc "/// short",
        lc "/// This is a line longer than ten characters"][1]? =
      some (lc "/// short") ∧
    whyHelpfulOf
        (lc "/// Purpose\n/// short\n/// This is a line longer than ten characters")
        [lc "/// Purpose", lc "/// short",
          lc "/// This is a line longer than ten characters"] =
      lc "This is a line longer than ten characters" := by
  refine ⟨by decide, by decide, by decide, by decide⟩

/-- C6 (amended): when no explanatory-sentence pattern produces a usable
match, `whyHelpful` is the first line among the documentation lines after
the first one whose cleaned text is non-empty, not a markdown heading,
contains no code fence, and has length strictly between 10 and 200 — not
only the second line; it is the empty string only when no such line
exists. -/
theorem C6_fallback_first_qualifying (docText : List Char)
    (docLines : List (List Char))
    (h : patternHelpful docText = none) :
    whyHelpfulOf docText docLines =
      (((docLines.drop 1).findSome? qualifyLine).getD []) := by
  unfold whyHelpfulOf
  rw [h]
  by_cases hl : 1 < docLines.length
  · rw [if_pos hl]
    exact fallbackHelpful_eq_findSome _
  · rw [if_neg hl]
    have : docLines.drop 1 = [] := by
      apply List.drop_eq_nil_of_le
      omega
    rw [this]
    rfl

theorem C6_fallback_first_qualifying_witness :
    patternHelpful
        (lc "/// Purpose\n/// short-two\n/// Totally qualifying fallback line here") =
      none ∧
    whyHelpfulOf
        (lc "/// Purpose\n/// short-two\n/// Totally qualifying fallback line here")
        [lc "/// Purpose", lc "/// short-two",
          lc "/// Totally qualifying fallback line here"] =
      ((([lc "/// Purpose", lc "/// short-two",
          lc "/// Totally qualifying fallback line here"].drop 1).findSome?
            qualifyLine).getD []) :=
  ⟨by decide, C6_fallback_first_qualifying _ _ (by decide)⟩

theorem dropWhile_eq_drop_length_takeWhile (p : Char → Bool) :
    ∀ t : List Char, t.drop (t.takeWhile p).length = t.dropWhile p := by
  intro t
  induction t with
  | nil => rfl
  | cons c t' ih =>
    by_cases hc : p c
    · rw [List.takeWhile_cons, if_pos hc, List.dropWhile_cons, if_pos hc,
        List.length_cons, List.drop_succ_cons]
      exact ih
    · rw [List.takeWhile_cons, if_neg hc, List.dropWhile_cons, if_neg hc,
        List.length_nil, List.drop_zero]

/-- The declaration-keyword-plus-name pattern `pub fn name(` holding at the
start of `s`, stated from the spec's wording. -/
def pubFnPatternAt (s : List Char) : Prop :=
  ∃ nm rest, s = lc "pub fn " ++ (nm ++ '(' :: rest) ∧ nm ≠ [] ∧
    ∀ c ∈ nm, isWordChar c = true

theorem findPubFn_some_pattern :
    ∀ cs nm u, findPubFn cs = some (nm, u) →
      ∃ i, pubFnPatternAt (cs.drop i) := by
  intro cs
  induction cs with
  | nil => intro nm u h; simp [findPubFn] at h
  | cons c rest ih =>
    intro nm u h
    rw [findPubFn] at h
    split at h
    · rename_i hpre
      simp only [] at h
      split at h
      · rename_i hcond
        refine ⟨0, ?_⟩
        rw [List.drop_zero]
        obtain ⟨t2, ht2⟩ := List.isPrefixOf_iff_prefix.mp hpre
        have hlen7 : (lc "pub fn ").length = 7 := by decide
        have ht : (c :: rest).drop 7 = t2 := by
          rw [← ht2, ← hlen7, List.drop_left]
        set t := (c :: rest).drop 7 with hdef
        set w := t.takeWhile isWordChar with hw
        have hsplit : t = w ++ t.drop w.length := by
          rw [hw, dropWhile_eq_drop_length_takeWhile]
          exact (List.takeWhile_append_dropWhile ..).symm
        cases hdw : t.drop w.length with
        | nil => rw [hdw] at hcond; exact absurd hcond.2 (by simp)
        | cons a l' =>
          have ha : a = '(' := by
            have := hcond.2
            rw [hdw] at this
            simpa using this
          refine ⟨w, l', ?_, hcond.1, fun c hc => List.mem_takeWhile_imp hc⟩
          rw [← ht2, ← ht, hsplit, hdw, ha]
      · obtain ⟨i, hi⟩ := ih _ _ h
        exact ⟨i + 1, by simpa using hi⟩
    · obtain ⟨i, hi⟩ := ih _ _ h
      exact ⟨i + 1, by simpa using hi⟩

theorem findPubFn_suffix :
    ∀ cs nm u, findPubFn cs = some (nm, u) → u <:+ cs := by
  intro cs
  induction cs with
  | nil => intro nm u h; simp [findPubFn] at h
  | cons c rest ih =>
    intro nm u h
    rw [findPubFn] at h
    split at h
    · simp only [] at h
      split at h
      · injection h with h'
        injection h' with h1 h2
        rw [← h2, List.drop_drop]
        exact List.drop_suffix _ _
      · exact (ih _ _ h).trans (List.suffix_cons c rest)
    · exact (ih _ _ h).trans (List.suffix_cons c rest)

theorem scanClose_suffix :
    ∀ (cs : List Char) (d : Int) (acc ps r : List Char),
      scanClose d acc cs = some (ps, r) → r <:+ cs := by
  intro cs
  induction cs with
  | nil => intro d acc ps r h; simp [scanClose] at h
  | cons c rest ih =>
    intro d acc ps r h
    rw [scanClose] at h
    split at h
    · exact ((ih _ _ _ _ h).trans (List.suffix_cons c rest))
    · split at h
      · split at h
        · injection h with h'
          injection h' with h1 h2
          rw [← h2]
        · exact ((ih _ _ _ _ h).trans (List.suffix_cons c rest))
      · exact ((ih _ _ _ _ h).trans (List.suffix_cons c rest))

theorem hasSub_of_isPrefixOf {pat s : List Char}
    (h : pat.isPrefixOf s = true) : hasSub pat s = true := by
  cases s with
  | nil => rw [hasSub]; exact h
  | cons c rest => rw [hasSub, h, Bool.true_or]

theorem hasSub_append_right (pat : List Char) :
    ∀ l r : List Char, hasSub pat r = true → hasSub pat (l ++ r) = true := by
  intro l
  induction l with
  | nil => intro r h; exact h
  | cons c l' ih =>
    intro r h
    rw [List.cons_append, hasSub, ih r h, Bool.or_true]

theorem tryRetAt_arrow {afterParen g : List Char}
    (h : tryRetAt afterParen = some g) :
    hasSub (lc "->") afterParen = true := by
  unfold tryRetAt at h
  simp only [] at h
  split at h
  · rename_i r2 heq
    have : afterParen = afterParen.takeWhile isPySpace ++ ('-' :: '>' :: r2) := by
      conv_lhs => rw [← List.takeWhile_append_dropWhile (p := isPySpace) (l := afterParen)]
      rw [heq]
    rw [this]
    apply hasSub_append_right
    apply hasSub_of_isPrefixOf
    simp [lc, List.isPrefixOf]
  · exact absurd h (by simp)

theorem findRet_arrow :
    ∀ cs g, findRet cs = some g → hasSub (lc "->") cs = true := by
  intro cs
  induction cs with
  | nil => intro g h; simp [findRet] at h
  | cons c rest ih =>
    intro g h
    rw [findRet] at h
    split at h
    · rw [hasSub]
      cases htr : tryRetAt rest with
      | some g' => rw [tryRetAt_arrow htr, Bool.or_true]
      | none =>
        rw [htr] at h
        rw [ih _ h, Bool.or_true]
    · rw [hasSub, ih _ h, Bool.or_true]

theorem hasSub_suffix_mono {pat s2 s1 : List Char} (hs : s2 <:+ s1)
    (h : hasSub pat s2 = true) : hasSub pat s1 = true := by
  obtain ⟨pre, rfl⟩ := hs
  exact hasSub_append_right pat pre s2 h

theorem parseSigStr_none_of_no_arrow (s : List Char)
    (h : hasSub (lc "->") s = false) : parseSigStr s = none := by
  unfold parseSigStr
  cases hf : findPubFn s with
  | none => rfl
  | some p =>
    obtain ⟨nm, u⟩ := p
    have hus : u <:+ s := findPubFn_suffix _ _ _ hf
    have hret : ∀ region, region <:+ u → findRet region = none := by
      intro region hreg
      cases hr : findRet region with
      | none => rfl
      | some g =>
        have := hasSub_suffix_mono hus (hasSub_suffix_mono hreg (findRet_arrow _ _ hr))
        rw [h] at this
        exact absurd this (by simp)
    simp only []
    cases hsc : scanClose 1 [] u with
    | none =>
      simp only [hsc]
      rw [hret u (List.suffix_rfl)]
    | some pr =>
      obtain ⟨ps, region⟩ := pr
      simp only [hsc]
      rw [hret region (scanClose_suffix _ _ _ _ _ hsc)]

/-- C4: a declaration whose joined signature exhibits no `pub fn name(`
pattern, or contains no `->` at all, is rejected (`parse_function_signature`
returns no result), and sibling valid declarations in the same file are
still parsed and emitted: in a file containing `pub fn bad(x: Int) {` (its
collected signature stops at the `{}` body line and holds no arrow)
followed by `pub fn good(x: Int) -> Int {`, exactly `good` is emitted. -/
theorem C4_unparseable_silently_dropped :
    (∀ declLines : List (List Char),
      ((∀ i, ¬ pubFnPatternAt ((joinWith [' '] (collectSig declLines)).drop i)) →
        parse_function_signature declLines = none) ∧
      (hasSub (lc "->") (joinWith [' '] (collectSig declLines)) = false →
        parse_function_signature declLines = none)) ∧
    ((parse_gleam_file (lc "gleam/t.gleam")
        (lc "pub fn bad(x: Int) \x7b\n  \x7b\x7d\n\x7d\n\npub fn good(x: Int) -> Int \x7b\n  x\n\x7d")).functions.map
      (fun f => f.name) = [lc "good"]) := by
  refine ⟨fun declLines => ⟨?_, ?_⟩, by decide⟩
  · intro hno
    unfold parse_function_signature parseSigStr
    cases hf : findPubFn (joinWith [' '] (collectSig declLines)) with
    | none => rfl
    | some p =>
      obtain ⟨nm, u⟩ := p
      obtain ⟨i, hi⟩ := findPubFn_some_pattern _ _ _ hf
      exact absurd hi (hno i)
  · intro hno
    exact parseSigStr_none_of_no_arrow _ hno

theorem C4_unparseable_silently_dropped_witness :
    hasSub (lc "->")
        (joinWith [' '] (collectSig [lc "pub fn bad(x: Int) \x7b", lc "\x7b\x7d"])) =
      false ∧
    parse_function_signature [lc "pub fn bad(x: Int) \x7b", lc "\x7b\x7d"] = none :=
  ⟨by decide,
    (C4_unparseable_silently_dropped.1 [lc "pub fn bad(x: Int) \x7b", lc "\x7b\x7d"]).2
      (by decide)⟩

/-! ### Spec-level reformulation of the parameter splitter (for C1)

The spec describes the scan token-wise: the two-character arrow `->` is one
atomic token that never affects the depth counter and is never split; every
other character is its own token; `(` and `<` (resp. `)` and `>`) move one
shared depth counter; a comma token at depth 0 is the only separator. -/

inductive PTok where
  | arrow : PTok
  | ch : Char → PTok
  deriving Repr, DecidableEq

def ptokens : List Char → List PTok
  | [] => []
  | '-' :: '>' :: rest => .arrow :: ptokens rest
  | c :: rest => .ch c :: ptokens rest

def splitTokGo : List PTok → Int → List Char → List (List Char) → List (List Char)
  | [], _, cur, acc => pushPart acc cur
  | .arrow :: ts, d, cur, acc => splitTokGo ts d (cur ++ ['-', '>']) acc
  | .ch c :: ts, d, cur, acc =>
    if c = '(' ∨ c = '<' then splitTokGo ts (d + 1) (cur ++ [c]) acc
    else if c = ')' ∨ c = '>' then splitTokGo ts (d - 1) (cur ++ [c]) acc
    else if c = ',' ∧ d = 0 then splitTokGo ts d [] (pushPart acc cur)
    else splitTokGo ts d (cur ++ [c]) acc

def split_params_spec (s : List Char) : List (List Char) :=
  splitTokGo (ptokens s) 0 [] []

theorem splitGo_cons_step (c : Char) (rest : List Char) (d : Int)
    (cur : List Char) (acc : List (List Char))
    (h : ¬ (c = '-' ∧ rest.head? = some '>')) :
    splitGo (c :: rest) d cur acc =
      if c = '(' ∨ c = '<' then splitGo rest (d + 1) (cur ++ [c]) acc
      else if c = ')' ∨ c = '>' then splitGo rest (d - 1) (cur ++ [c]) acc
      else if c = ',' ∧ d = 0 then splitGo rest d [] (pushPart acc cur)
      else splitGo rest d (cur ++ [c]) acc := by
  rw [splitGo.eq_def]
  split
  · rename_i heq
    simp at heq
  · rename_i rest2 heq
    injection heq with hc hr
    subst hc
    rw [hr] at h
    simp at h
  · rename_i cc rr hno heq
    injection heq with hc hr
    subst hc
    subst hr
    rfl

theorem ptokens_cons_step (c : Char) (rest : List Char)
    (h : ¬ (c = '-' ∧ rest.head? = some '>')) :
    ptokens (c :: rest) = .ch c :: ptokens rest := by
  rw [ptokens.eq_def]
  split
  · rename_i heq
    simp at heq
  · rename_i rest2 heq
    injection heq with hc hr
    subst hc
    rw [hr] at h
    simp at h
  · rename_i cc rr hno heq
    injection heq with hc hr
    subst hc
    subst hr
    rfl

theorem splitGo_eq_splitTokGo :
    ∀ (n : Nat) (cs : List Char), cs.length ≤ n → ∀ d cur acc,
      splitGo cs d cur acc = splitTokGo (ptokens cs) d cur acc := by
  intro n
  induction n with
  | zero =>
    intro cs hlen d cur acc
    have : cs = [] := List.eq_nil_of_length_eq_zero (Nat.le_zero.mp hlen)
    subst this
    rfl
  | succ n ih =>
    intro cs hlen d cur acc
    cases cs with
    | nil => rfl
    | cons c rest =>
      by_cases harr : c = '-' ∧ rest.head? = some '>'
      · obtain ⟨hc, hh⟩ := harr
        subst hc
        cases rest with
        | nil => exact absurd hh (by simp)
        | cons r rest2 =>
          have hr : r = '>' := by simpa using hh
          subst hr
          show splitGo rest2 d (cur ++ ['-', '>']) acc =
            splitTokGo (.arrow :: ptokens rest2) d cur acc
          rw [splitTokGo]
          refine ih rest2 ?_ d _ acc
          simp only [List.length_cons] at hlen
          omega
      · rw [splitGo_cons_step c rest d cur acc harr,
          ptokens_cons_step c rest harr, splitTokGo]
        have hlen' : rest.length ≤ n := by
          simp only [List.length_cons] at hlen
          omega
        split_ifs <;> exact ih rest hlen' _ _ _

/-- C1: the parameter splitter performs exactly the token-wise scan the
spec describes — `->` is one atomic token with no depth effect, `(`/`<`
and `)`/`>` move a single shared depth counter, and a comma at depth 0 is
the only separator (`split_params = split_params_spec` on every input).
Concretely, `name: List(Result(a, e))` yields one Parameter with the full
nested type, and in `x: fn(a, b) -> c, y: Int` the `>` of the arrow does
not disturb the depth, so the depth-0 comma still separates the two
parameters. -/
theorem C1_split_depth_and_arrow :
    (∀ s : List Char, split_params s = split_params_spec s) ∧
    parse_params (lc "name: List(Result(a, e))") =
      [⟨lc "name", none, lc "List(Result(a, e))"⟩] ∧
    parse_params (lc "x: fn(a, b) -> c, y: Int") =
      [⟨lc "x", none, lc "fn(a, b) -> c"⟩, ⟨lc "y", none, lc "Int"⟩] :=
  ⟨fun s => splitGo_eq_splitTokGo s.length s (le_refl _) 0 [] [],
    by decide, by decide⟩

/-! ### Simple `name: Type` parameter lists (for C7) -/

/-- A character that the parameter splitter passes through unchanged:
not a bracket, not a comma, and not a `-` (which could start an arrow). -/
def plainChar (c : Char) : Prop :=
  c ≠ '(' ∧ c ≠ '<' ∧ c ≠ ')' ∧ c ≠ '>' ∧ c ≠ ',' ∧ c ≠ '-'

instance (c : Char) : Decidable (plainChar c) := by
  unfold plainChar
  infer_instance

theorem plainChar_of_word {c : Char} (h : isWordChar c = true) : plainChar c := by
  refine ⟨?_, ?_, ?_, ?_, ?_, ?_⟩ <;>
    (intro hc; rw [hc] at h; exact absurd h (by decide))

theorem notSpace_of_word {c : Char} (h : isWordChar c = true) :
    isPySpace c = false := by
  cases hs : isPySpace c with
  | false => rfl
  | true =>
    simp only [isPySpace, Bool.or_eq_true, decide_eq_true_eq] at hs
    rcases hs with ((((hc | hc) | hc) | hc) | hc) | hc <;>
      (rw [hc] at h; exact absurd h (by decide))

theorem splitGo_plain (c : Char) (rest : List Char) (d : Int)
    (cur : List Char) (acc : List (List Char)) (hc : plainChar c) :
    splitGo (c :: rest) d cur acc = splitGo rest d (cur ++ [c]) acc := by
  rw [splitGo_cons_step c rest d cur acc (fun hx => hc.2.2.2.2.2 hx.1)]
  rw [if_neg (by rintro (h | h) <;> [exact hc.1 h; exact hc.2.1 h]),
    if_neg (by rintro (h | h) <;> [exact hc.2.2.1 h; exact hc.2.2.2.1 h]),
    if_neg (fun hx => hc.2.2.2.2.1 hx.1)]

theorem splitGo_comma (rest : List Char) (cur : List Char)
    (acc : List (List Char)) :
    splitGo (',' :: rest) 0 cur acc = splitGo rest 0 [] (pushPart acc cur) := by
  rw [splitGo_cons_step ',' rest 0 cur acc (by simp)]
  rw [if_neg (by decide), if_neg (by decide), if_pos ⟨rfl, rfl⟩]

theorem splitGo_append_plain :
    ∀ (p : List Char), (∀ c ∈ p, plainChar c) →
      ∀ (rest : List Char) (d : Int) (cur : List Char) (acc : List (List Char)),
        splitGo (p ++ rest) d cur acc = splitGo rest d (cur ++ p) acc := by
  intro p
  induction p with
  | nil => intro _ rest d cur acc; rw [List.nil_append, List.append_nil]
  | cons c p' ih =>
    intro hp rest d cur acc
    rw [List.cons_append,
      splitGo_plain c _ d cur acc (hp c (List.mem_cons_self c p')),
      ih (fun x hx => hp x (List.mem_cons_of_mem c hx)) rest d (cur ++ [c]) acc,
      List.append_assoc, List.singleton_append]

theorem takeWhile_append_stop {p : Char → Bool} :
    ∀ (xs : List Char), (∀ c ∈ xs, p c = true) →
      ∀ (y : Char), p y = false → ∀ (ys : List Char),
        (xs ++ y :: ys).takeWhile p = xs := by
  intro xs
  induction xs with
  | nil => intro _ y hy ys; rw [List.nil_append, List.takeWhile_cons, hy]; rfl
  | cons x xs' ih =>
    intro hxs y hy ys
    rw [List.cons_append, List.takeWhile_cons, hxs x (List.mem_cons_self x xs')]
    rw [ih (fun c hc => hxs c (List.mem_cons_of_mem x hc)) y hy ys]
    rfl

theorem takeWhile_eq_self_of {p : Char → Bool} :
    ∀ (xs : List Char), (∀ c ∈ xs, p c = true) → xs.takeWhile p = xs := by
  intro xs
  induction xs with
  | nil => intro _; rfl
  | cons x xs' ih =>
    intro hxs
    rw [List.takeWhile_cons, hxs x (List.mem_cons_self x xs'),
      ih (fun c hc => hxs c (List.mem_cons_of_mem x hc))]
    rfl

theorem dropWhile_append_all {p : Char → Bool} :
    ∀ (xs : List Char), (∀ c ∈ xs, p c = true) →
      ∀ (r : List Char), (xs ++ r).dropWhile p = r.dropWhile p := by
  intro xs
  induction xs with
  | nil => intro _ r; rw [List.nil_append]
  | cons x xs' ih =>
    intro hxs r
    rw [List.cons_append, List.dropWhile_cons,
      hxs x (List.mem_cons_self x xs')]
    exact ih (fun c hc => hxs c (List.mem_cons_of_mem x hc)) r

theorem dropWhile_eq_self_of_head {p : Char → Bool} {t : List Char}
    (h : ∀ c, t.head? = some c → p c = false) : t.dropWhile p = t := by
  cases t with
  | nil => rfl
  | cons c t' =>
    rw [List.dropWhile_cons, h c rfl]
    rfl

theorem pyStrip_eq_self {t : List Char}
    (h1 : ∀ c, t.head? = some c → isPySpace c = false)
    (h2 : ∀ c, t.getLast? = some c → isPySpace c = false) : pyStrip t = t := by
  unfold pyStrip
  rw [dropWhile_eq_self_of_head h1]
  have : t.reverse.dropWhile isPySpace = t.reverse := by
    apply dropWhile_eq_self_of_head
    intro c hc
    rw [List.head?_reverse] at hc
    exact h2 c hc
  rw [this, List.reverse_reverse]

theorem pyStrip_ws_concat {cur t : List Char}
    (hcur : ∀ c ∈ cur, isPySpace c = true)
    (h1 : ∀ c, t.head? = some c → isPySpace c = false)
    (h2 : ∀ c, t.getLast? = some c → isPySpace c = false) :
    pyStrip (cur ++ t) = t := by
  unfold pyStrip
  rw [dropWhile_append_all cur hcur t, dropWhile_eq_self_of_head h1]
  have : t.reverse.dropWhile isPySpace = t.reverse := by
    apply dropWhile_eq_self_of_head
    intro c hc
    rw [List.head?_reverse] at hc
    exact h2 c hc
  rw [this, List.reverse_reverse]

theorem pyStrip_all_ws {cur : List Char}
    (hcur : ∀ c ∈ cur, isPySpace c = true) : pyStrip cur = [] := by
  unfold pyStrip
  rw [List.dropWhile_eq_nil_iff.mpr hcur]
  rfl

/-- The well-formedness of one `name: Type` parameter as claim C7 states
it: `name` is a non-empty identifier, `Type` is non-empty, non-nested (no
brackets, no comma, no arrow material, no newline) and has no surrounding
whitespace. -/
def SimpleParam (n t : List Char) : Prop :=
  n ≠ [] ∧ (∀ c ∈ n, isWordChar c = true) ∧
  t ≠ [] ∧ (∀ c ∈ t, plainChar c ∧ c ≠ '\n') ∧
  t.head?.all (fun c => !isPySpace c) = true ∧
  t.getLast?.all (fun c => !isPySpace c) = true

instance (n t : List Char) : Decidable (SimpleParam n t) := by
  unfold SimpleParam
  infer_instance

theorem head_all_imp {t : List Char}
    (h : t.head?.all (fun c => !isPySpace c) = true) :
    ∀ c, t.head? = some c → isPySpace c = false := by
  intro c hc
  rw [hc] at h
  simpa using h

theorem getLast_all_imp {t : List Char}
    (h : t.getLast?.all (fun c => !isPySpace c) = true) :
    ∀ c, t.getLast? = some c → isPySpace c = false := by
  intro c hc
  rw [hc] at h
  simpa using h

/-- Rendering of a comma-separated `name: Type` parameter list. -/
def renderParams (ps : List (List Char × List Char)) : List Char :=
  joinWith (lc ", ") (ps.map (fun p => p.1 ++ ':' :: ' ' :: p.2))

theorem matchParam_simple {n t : List Char} (hsp : SimpleParam n t) :
    matchParam (n ++ ':' :: ' ' :: t) = some ⟨n, none, t⟩ := by
  obtain ⟨hn, hnw, ht, htc, hthb, htlb⟩ := hsp
  have hth := head_all_imp hthb
  have htl := getLast_all_imp htlb
  have hw1 : (n ++ ':' :: ' ' :: t).takeWhile isWordChar = n :=
    takeWhile_append_stop n hnw ':' (by decide) (' ' :: t)
  have hr1 : (n ++ ':' :: ' ' :: t).drop n.length = ':' :: ' ' :: t :=
    List.drop_left n _
  have hws1 : (':' :: ' ' :: t).takeWhile isPySpace = [] := by
    rw [List.takeWhile_cons, show isPySpace ':' = false from by decide]
    rfl
  have hdrop : (' ' :: t).dropWhile isPySpace = t := by
    rw [List.dropWhile_cons, show isPySpace ' ' = true from by decide]
    simp only [if_true]
    exact dropWhile_eq_self_of_head hth
  have hbody : t.takeWhile (· ≠ '\n') = t :=
    takeWhile_eq_self_of t (fun c hc => by
      have := (htc c hc).2
      simpa using this)
  unfold matchParam
  simp only []
  rw [hw1, if_neg hn, hr1, hws1, if_pos (rfl : ([] : List Char) = [])]
  simp only [Option.isSome_none, Bool.false_eq_true, if_false,
    List.length_nil, List.drop_zero]
  have hcol : (':' :: ' ' :: t).head? = some ':' := rfl
  rw [if_pos hcol]
  rw [List.tail_cons, hdrop, hbody, if_neg ht, pyStrip_eq_self hth htl]

theorem part_head_not_ws {n t : List Char} (hsp : SimpleParam n t) :
    ∀ c, (n ++ ':' :: ' ' :: t).head? = some c → isPySpace c = false := by
  obtain ⟨hn, hnw, _, _, _, _⟩ := hsp
  intro c hc
  cases n with
  | nil => exact absurd rfl hn
  | cons a n' =>
    rw [List.cons_append] at hc
    injection hc with hc
    rw [← hc]
    exact notSpace_of_word (hnw a (List.mem_cons_self a n'))

theorem part_getLast_not_ws {n t : List Char} (hsp : SimpleParam n t) :
    ∀ c, (n ++ ':' :: ' ' :: t).getLast? = some c → isPySpace c = false := by
  obtain ⟨_, _, ht, _, _, htlb⟩ := hsp
  have htl := getLast_all_imp htlb
  intro c hc
  rw [List.getLast?_append] at hc
  have hlast : (':' :: ' ' :: t).getLast? = t.getLast? := by
    rw [show (':' :: ' ' :: t) = [':', ' '] ++ t from rfl, List.getLast?_append]
    cases hg : t.getLast? with
    | none => exact absurd hg (by simpa [List.getLast?_eq_none_iff] using ht)
    | some x => rfl
  rw [hlast] at hc
  cases hg : t.getLast? with
  | none => exact absurd hg (by simpa [List.getLast?_eq_none_iff] using ht)
  | some x =>
    rw [hg] at hc
    injection hc with hc
    rw [← hc]
    exact htl x hg

theorem part_plain {n t : List Char} (hsp : SimpleParam n t) :
    ∀ c ∈ n ++ ':' :: ' ' :: t, plainChar c := by
  obtain ⟨_, hnw, _, htc, _, _⟩ := hsp
  intro c hc
  rw [List.mem_append] at hc
  rcases hc with hc | hc
  · exact plainChar_of_word (hnw c hc)
  · rcases hc with _ | ⟨_, hc⟩
    · exact (by decide : plainChar ':')
    · rcases hc with _ | ⟨_, hc⟩
      · exact (by decide : plainChar ' ')
      · exact (htc c hc).1

theorem splitGo_render :
    ∀ (ps : List (List Char × List Char)),
      (∀ p ∈ ps, SimpleParam p.1 p.2) →
      ∀ (cur : List Char), (∀ c ∈ cur, isPySpace c = true) →
      ∀ (acc : List (List Char)),
        splitGo (renderParams ps) 0 cur acc =
          acc ++ ps.map (fun p => p.1 ++ ':' :: ' ' :: p.2) := by
  intro ps
  induction ps with
  | nil =>
    intro _ cur hcur acc
    show pushPart acc cur = acc ++ []
    unfold pushPart
    rw [if_neg (by simpa using pyStrip_all_ws hcur), List.append_nil]
  | cons p ps' ih =>
    intro hps cur hcur acc
    have hp := hps p (List.mem_cons_self p ps')
    have hpart := part_plain hp
    cases ps' with
    | nil =>
      show splitGo (p.1 ++ ':' :: ' ' :: p.2) 0 cur acc = _
      rw [show p.1 ++ ':' :: ' ' :: p.2 =
          (p.1 ++ ':' :: ' ' :: p.2) ++ [] from (List.append_nil _).symm]
      rw [splitGo_append_plain _ hpart [] 0 cur acc]
      show pushPart acc (cur ++ (p.1 ++ ':' :: ' ' :: p.2)) = _
      unfold pushPart
      rw [pyStrip_ws_concat hcur (part_head_not_ws hp) (part_getLast_not_ws hp)]
      rw [if_pos (by
        intro hemp
        exact hp.1 (by simpa using congrArg (List.take p.1.length) hemp))]
      rfl
    | cons q qs =>
      show splitGo ((p.1 ++ ':' :: ' ' :: p.2) ++ lc ", " ++
        renderParams (q :: qs)) 0 cur acc = _
      rw [List.append_assoc]
      rw [splitGo_append_plain _ hpart _ 0 cur acc]
      show splitGo (',' :: ' ' :: renderParams (q :: qs)) 0 _ acc = _
      rw [splitGo_comma]
      have hpush : pushPart acc (cur ++ (p.1 ++ ':' :: ' ' :: p.2)) =
          acc ++ [p.1 ++ ':' :: ' ' :: p.2] := by
        unfold pushPart
        rw [pyStrip_ws_concat hcur (part_head_not_ws hp) (part_getLast_not_ws hp)]
        rw [if_pos (by
          intro hemp
          exact hp.1 (by simpa using congrArg (List.take p.1.length) hemp))]
      rw [hpush]
      rw [show (' ' :: renderParams (q :: qs)) =
        [' '] ++ renderParams (q :: qs) from rfl]
      rw [splitGo_append_plain [' '] (by decide) _ 0 [] _]
      rw [List.nil_append]
      rw [ih (fun x hx => hps x (List.mem_cons_of_mem p hx)) [' ']
        (by decide) (acc ++ [p.1 ++ ':' :: ' ' :: p.2])]
      rw [List.append_assoc]
      rfl

theorem filterMap_matchParam_render :
    ∀ (ps : List (List Char × List Char)),
      (∀ p ∈ ps, SimpleParam p.1 p.2) →
      (ps.map (fun p => p.1 ++ ':' :: ' ' :: p.2)).filterMap matchParam =
        ps.map (fun p => (⟨p.1, none, p.2⟩ : Param)) := by
  intro ps
  induction ps with
  | nil => intro _; rfl
  | cons p ps' ih =>
    intro hps
    rw [List.map_cons, List.filterMap_cons,
      matchParam_simple (hps p (List.mem_cons_self p ps'))]
    rw [ih (fun x hx => hps x (List.mem_cons_of_mem p hx))]
    rfl

/-- C7: a signature parameter list of N comma-separated, non-nested
`name: Type` parameters parses to exactly N Parameter entries, in source
order, each carrying its name and type and no label. -/
theorem C7_simple_params_roundtrip (ps : List (List Char × List Char))
    (h : ∀ p ∈ ps, SimpleParam p.1 p.2) :
    parse_params (renderParams ps) =
      ps.map (fun p => (⟨p.1, none, p.2⟩ : Param)) ∧
    (parse_params (renderParams ps)).length = ps.length := by
  have hmain : parse_params (renderParams ps) =
      ps.map (fun p => (⟨p.1, none, p.2⟩ : Param)) := by
    unfold parse_params split_params
    rw [splitGo_render ps h [] (by simp) []]
    rw [List.nil_append]
    exact filterMap_matchParam_render ps h
  exact ⟨hmain, by rw [hmain, List.length_map]⟩

theorem C7_simple_params_roundtrip_witness :
    parse_params (renderParams [(lc "x", lc "Int"), (lc "y", lc "Bool")]) =
      [(⟨lc "x", none, lc "Int"⟩ : Param), ⟨lc "y", none, lc "Bool"⟩] ∧
    (parse_params
        (renderParams [(lc "x", lc "Int"), (lc "y", lc "Bool")])).length = 2 :=
  C7_simple_params_roundtrip [(lc "x", lc "Int"), (lc "y", lc "Bool")]
    (by decide)

/-- C3 (counterexample): the declaration `pub fn foo() -> {`, where only
whitespace separates the arrow from the body brace, is parsed successfully
(the regex `\)\s*->\s*([^{]+)` backtracks one whitespace character into the
capture group) and is emitted into the per-module document as a Function
node whose `returnType` is the empty string, refuting the claim that every
emitted Function has a non-empty `returnType`. -/
theorem C3_counterexample :
    ((generate_module_jsonld (parse_gleam_file (lc "gleam/t.gleam")
        (lc "pub fn foo() -> \x7b\n\x7d"))).functionNodes.map
      (fun fn => (fn.name, fn.returnType))) = [(lc "foo", [])] := by decide

/-- C3 (amended): every Function emitted into a per-module document has a
non-empty `name` (the capture `(\w+)` needs at least one word character),
and a declaration that cannot be parsed is silently excluded; but the
`returnType` may be empty (exactly when only whitespace separates `->` from
`{`, see the counterexample). -/
theorem C3_emitted_name_nonempty (relPath content : List Char)
    (fn : FunctionNode)
    (h : fn ∈ (generate_module_jsonld
        (parse_gleam_file relPath content)).functionNodes) :
    fn.name ≠ [] := by
  simp only [generate_module_jsonld, parse_gleam_file, List.mem_map] at h
  obtain ⟨f, hf, hfn⟩ := h
  have : fn.name = f.name := by rw [← hfn]
  rw [this]
  exact pgScan_name_ne_nil _ _ _ _ hf

theorem C3_emitted_name_nonempty_witness :
    ((generate_module_jsonld (parse_gleam_file (lc "gleam/t.gleam")
        (lc "pub fn foo() -> \x7b\n\x7d"))).functionNodes.head
      (by decide)).name ≠ [] :=
  C3_emitted_name_nonempty _ _ _ (List.head_mem _)

/-- C8: in `generate_module_jsonld`, every function node identifier is
`ex:` + the module id (the module name with `.` and `/` replaced by `_`)
+ `_` + the function name, and identifiers of functions with pairwise
distinct names are pairwise distinct (the ids of two same-named functions
are literally equal, i.e. they collide). -/
theorem C8_function_ids (m : ModuleData) :
    ((generate_module_jsonld m).functionNodes.map (fun fn => fn.id) =
      m.functions.map (fun f => lc "ex:" ++ moduleIdOf m.name ++ '_' :: f.name)) ∧
    ((m.functions.map (fun f => f.name)).Nodup →
      ((generate_module_jsonld m).functionNodes.map (fun fn => fn.id)).Nodup) := by
  have hids : (generate_module_jsonld m).functionNodes.map (fun fn => fn.id) =
      m.functions.map (fun f => lc "ex:" ++ moduleIdOf m.name ++ '_' :: f.name) := by
    simp only [generate_module_jsonld, List.map_map]
    rfl
  refine ⟨hids, fun hnd => ?_⟩
  rw [hids]
  have : m.functions.map (fun f => lc "ex:" ++ moduleIdOf m.name ++ '_' :: f.name) =
      (m.functions.map (fun f => f.name)).map
        (fun nm => lc "ex:" ++ moduleIdOf m.name ++ '_' :: nm) := by
    rw [List.map_map]; rfl
  rw [this]
  refine hnd.map ?_
  intro a b hab
  have h1 := List.append_cancel_left hab
  injection h1 with _ h2

theorem C8_function_ids_witness :
    ((generate_module_jsonld
        { name := lc "gleam.pair", description := [],
          functions :=
            [{ name := lc "first", parameters := [], returnType := lc "a",
               purpose := [], whyHelpful := [], examples := [],
               module := lc "gleam.pair" },
             { name := lc "second", parameters := [], returnType := lc "b",
               purpose := [], whyHelpful := [], examples := [],
               module := lc "gleam.pair" }] }).functionNodes.map
      (fun fn => fn.id)).Nodup :=
  (C8_function_ids _).2 (by decide)

/-- C10: `generate_types_jsonld` is a constant (the Python function takes
no input at all), and its graph consists of exactly the five Type nodes
Result, Option, List, Dict and Order, with the fixed descriptions and the
fixed constructor lists Ok/Error, Some/None, none, none and Lt/Eq/Gt. -/
theorem C10_types_catalog_constant :
    generate_types_jsonld.graph.length = 5 ∧
    generate_types_jsonld.graph.map (fun t => t.name) =
      [lc "Result", lc "Option", lc "List", lc "Dict", lc "Order"] ∧
    generate_types_jsonld.graph.map (fun t => t.ntype) =
      [lc "Type", lc "Type", lc "Type", lc "Type", lc "Type"] ∧
    generate_types_jsonld.graph.map (fun t => t.constructors.map (fun c => c.name)) =
      [[lc "Ok", lc "Error"], [lc "Some", lc "None"], [], [],
        [lc "Lt", lc "Eq", lc "Gt"]] ∧
    generate_types_jsonld.graph.map (fun t => t.constructors.map (fun c => c.parameters)) =
      [[some [lc "a"], some [lc "e"]], [some [lc "a"], some []], [], [],
        [none, none, none]] ∧
    generate_types_jsonld.graph.map (fun t => t.description) =
      [lc "Represents the result of something that may succeed or not. Ok means it was successful, Error means it was not successful.",
       lc "Represents a value that may be present or not. Some means the value is present, None means the value is not.",
       lc "An ordered sequence of elements. New elements can be added and removed from the front in constant time.",
       lc "A dictionary of keys and values. Each key can only be present once. Dicts are not ordered.",
       lc "Represents the ordering relationship between two values."] :=
  ⟨rfl, rfl, rfl, rfl, rfl, rfl⟩
